import Mathlib

/-
  Verification development for the halfspace user-guide repository.

  Part 1 embeds the failure-analysis pipeline of
  notebooks/tectonic_stress_2_failure.ipynb: the prior/fault sample table,
  the resolved-stress columns, the per-iteration friction estimate and the
  posterior filter.  Part 2 embeds the topographic stress-field pipeline of
  notebooks/topographic_stress_field_calcs.ipynb: Boussinesq and Cerruti
  convolution stages, the loading functions and the combined field.
-/

namespace Failure

/-- Arithmetic mean of a list of reals, as pandas mean: sum divided by
length (the empty mean is 0/0 = 0 in this model). -/
noncomputable def lmean (l : List ℝ) : ℝ := l.sum / l.length

/-- One row of the fault-slip model table `fault_df`
(columns consumed by the notebook: z, strike, dip, slip_m and the six
stress components). -/
structure FaultPt where
  z : ℝ
  strike : ℝ
  dip : ℝ
  slip_m : ℝ
  xx_stress : ℝ
  yy_stress : ℝ
  xy_stress : ℝ
  zz_stress : ℝ
  xz_stress : ℝ
  yz_stress : ℝ
deriving Inhabited

/-- One row of the rake-posterior prior table `r_priors_df`: the table
index (iteration id) plus the tectonic stress triple and the likelihood. -/
structure Prior where
  idx : ℤ
  txx : ℝ
  tyy : ℝ
  txy : ℝ
  likelihood : ℝ
deriving Inhabited

/-- One row of `search_df` (the cross product of prior iterations with
fault points), with the columns the notebook fills before resolving
stresses. -/
structure Row where
  iter : ℤ
  phi : ℝ
  txx : ℝ
  tyy : ℝ
  txy : ℝ
  pt_index : ℕ
  depth : ℝ
  strike : ℝ
  dip : ℝ
  slip_m : ℝ
  mxx : ℝ
  myy : ℝ
  mxy : ℝ
  mzz : ℝ
  mxz : ℝ
  myz : ℝ
deriving Inhabited

/-- A row of `search_df` as first filled: prior columns copied, fault-model
columns (`df_fill_cols`) copied from the fault table, before the unit
conversions are applied. -/
def rawRow (pr : Prior) (phiv : ℝ) (ptIdx : ℕ) (p : FaultPt) : Row :=
  { iter := pr.idx
    phi := phiv
    txx := pr.txx
    tyy := pr.tyy
    txy := pr.txy
    pt_index := ptIdx
    depth := p.z
    strike := p.strike
    dip := p.dip
    slip_m := p.slip_m
    mxx := p.xx_stress
    myy := p.yy_stress
    mxy := p.xy_stress
    mzz := p.zz_stress
    mxz := p.xz_stress
    myz := p.yz_stress }

/-- The two unit-conversion statements of the notebook:
`search_df.depth *= 1000` (km to m) and
`search_df[[mxx, myy, mxy, mzz, mxz, myz]] *= 1e6` (MPa to Pa). -/
def convertRow (r : Row) : Row :=
  { r with
    depth := 1000 * r.depth
    mxx := 1e6 * r.mxx
    myy := 1e6 * r.myy
    mxy := 1e6 * r.mxy
    mzz := 1e6 * r.mzz
    mxz := 1e6 * r.mxz
    myz := 1e6 * r.myz }

/-- The block of `search_df` rows produced for one prior iteration paired
with its pore-pressure draw: one converted row per fault point, in fault
table order, with `pt_index` the position of the point. -/
def blockRows (fps : List FaultPt) (pr : Prior) (phiv : ℝ) : List Row :=
  fps.enum.map (fun q => convertRow (rawRow pr phiv q.1 q.2))

/-- The full `search_df` table: for each prior (in table order, paired with
its phi draw) one block of rows, concatenated; this is `index_list` built
by the double comprehension, then filled and unit-converted. -/
def searchRows (fps : List FaultPt) (priors : List Prior) (phis : List ℝ) :
    List Row :=
  (priors.zip phis).flatMap (fun pp => blockRows fps pp.1 pp.2)

/-- The keyword arguments passed to the three `stress_comps_vectorized`
functions at their call sites in the notebook (phi is passed separately,
only to the effective normal stress). -/
structure StressArgs where
  strike : ℝ
  dip : ℝ
  mxx : ℝ
  myy : ℝ
  mxy : ℝ
  mzz : ℝ
  mxz : ℝ
  myz : ℝ
  txx : ℝ
  tyy : ℝ
  txy : ℝ
  depth : ℝ

/-- Modelled from the spec: the fault-stress resolution functions
`strike_shear`, `dip_shear` and `eff_normal_stress` of
`aux_scripts/stress_comps_vectorized.py` (imported as `scv`, not part of
the notebook sources).  Per the spec they are closed-form tensor
projections onto the fault plane consuming exactly the listed stress
arguments (plus the pore-pressure ratio phi for the effective normal
stress); density and gravity are the fixed notebook constants and are
absorbed.  They are kept abstract: no claim below depends on the
closed-form body, only on which values they consume and produce. -/
structure Resolver where
  strike_shear : StressArgs → ℝ
  dip_shear : StressArgs → ℝ
  eff_normal_stress : StressArgs → ℝ → ℝ

/-- The stress arguments a `search_df` row supplies to the resolvers. -/
def Row.args (r : Row) : StressArgs :=
  { strike := r.strike
    dip := r.dip
    mxx := r.mxx
    myy := r.myy
    mxy := r.mxy
    mzz := r.mzz
    mxz := r.mxz
    myz := r.myz
    txx := r.txx
    tyy := r.tyy
    txy := r.txy
    depth := r.depth }

/-- The stress arguments produced for prior `pr` at fault point `p`:
strike and dip copied, moment components scaled MPa to Pa once, tectonic
components copied, depth scaled km to m once. -/
def pointArgs (pr : Prior) (p : FaultPt) : StressArgs :=
  { strike := p.strike
    dip := p.dip
    mxx := 1e6 * p.xx_stress
    myy := 1e6 * p.yy_stress
    mxy := 1e6 * p.xy_stress
    mzz := 1e6 * p.zz_stress
    mxz := 1e6 * p.xz_stress
    myz := 1e6 * p.yz_stress
    txx := pr.txx
    tyy := pr.tyy
    txy := pr.txy
    depth := 1000 * p.z }

/-- Column `tau_s`: strike-parallel shear at the row. -/
def tau_s (R : Resolver) (r : Row) : ℝ := R.strike_shear r.args

/-- Column `tau_d`: dip-parallel shear at the row. -/
def tau_d (R : Resolver) (r : Row) : ℝ := R.dip_shear r.args

/-- Column `sig_n_eff`: effective normal stress at the row (consumes the
row phi in addition to the stress arguments). -/
def sig_n_eff (R : Resolver) (r : Row) : ℝ := R.eff_normal_stress r.args r.phi

/-- Column `tau_mag = np.sqrt(tau_s**2 + tau_d**2)`. -/
noncomputable def tau_mag (R : Resolver) (r : Row) : ℝ :=
  Real.sqrt (tau_s R r ^ 2 + tau_d R r ^ 2)

/-- `mean_slip = fault_df.slip_m.mean()`: mean slip over all fault points
of the fault model. -/
noncomputable def mean_slip (fps : List FaultPt) : ℝ :=
  lmean (fps.map FaultPt.slip_m)

/-- Column `weighted_tau_misfit = tau_mag * slip_m / mean_slip`. -/
noncomputable def weighted_tau_misfit (fps : List FaultPt) (R : Resolver)
    (r : Row) : ℝ :=
  tau_mag R r * r.slip_m / mean_slip fps

/-- The rows of one `groupby('iter')` group: the rows whose iter column
equals `t`. -/
def rowsOf (rows : List Row) (t : ℤ) : List Row :=
  rows.filter (fun r => decide (r.iter = t))

/-- The `groupby('iter')` keys: the distinct iter values present in the
table. -/
def iterKeys (rows : List Row) : List ℤ := (rows.map Row.iter).dedup

/-- `mu_iter = iters.weighted_tau_misfit.mean() / iters.sig_n_eff.mean()`:
the friction coefficient estimate of iteration `t`. -/
noncomputable def mu_iter (fps : List FaultPt) (R : Resolver)
    (rows : List Row) (t : ℤ) : ℝ :=
  lmean ((rowsOf rows t).map (weighted_tau_misfit fps R)) /
    lmean ((rowsOf rows t).map (sig_n_eff R))

/-- The index of `mu_real = mu_iter[(0 <= mu_iter) & (mu_iter <= 1)]`:
the iterations the failure filter retains. -/
noncomputable def keptIters (fps : List FaultPt) (R : Resolver)
    (rows : List Row) : List ℤ :=
  (iterKeys rows).filter
    (fun t => decide (0 ≤ mu_iter fps R rows t ∧ mu_iter fps R rows t ≤ 1))

/-- One row of the `fail_posteriors` output table, with its fixed columns. -/
structure PostRow where
  txx : ℝ
  tyy : ℝ
  txy : ℝ
  mu : ℝ
  phi : ℝ
  likelihood : ℝ

/-- `iters.txx.mean()` at iteration `t`. -/
noncomputable def txx_of (rows : List Row) (t : ℤ) : ℝ :=
  lmean ((rowsOf rows t).map Row.txx)

/-- `iters.tyy.mean()` at iteration `t`. -/
noncomputable def tyy_of (rows : List Row) (t : ℤ) : ℝ :=
  lmean ((rowsOf rows t).map Row.tyy)

/-- `iters.txy.mean()` at iteration `t`. -/
noncomputable def txy_of (rows : List Row) (t : ℤ) : ℝ :=
  lmean ((rowsOf rows t).map Row.txy)

/-- `iters.phi.mean()` at iteration `t` (`phi_iters`). -/
noncomputable def phi_of (rows : List Row) (t : ℤ) : ℝ :=
  lmean ((rowsOf rows t).map Row.phi)

/-- `r_priors_df.loc[t, 'likelihood']`: the likelihood of the prior row
whose index is `t` (first match; the prior table index is unique). -/
def likelihood_of (priors : List Prior) (t : ℤ) : ℝ :=
  ((priors.find? (fun pr => decide (pr.idx = t))).map Prior.likelihood).getD 0

/-- The `fail_posteriors` table: one record per retained iteration, built
from the per-iteration means, the unmodified mu value and the prior
likelihood, with columns txx, tyy, txy, mu, phi, likelihood. -/
noncomputable def fail_posteriors (fps : List FaultPt) (R : Resolver)
    (rows : List Row) (priors : List Prior) : List PostRow :=
  (keptIters fps R rows).map (fun t =>
    { txx := txx_of rows t
      tyy := tyy_of rows t
      txy := txy_of rows t
      mu := mu_iter fps R rows t
      phi := phi_of rows t
      likelihood := likelihood_of priors t })

/-- NumPy integer indexing into the 10000-element `phi_priors` array
(`np.random.random(1e4)` after `np.random.seed(70)`, modelled as an
abstract table of exactly 10000 draws): an index in [0, 10000) selects
that draw, a negative index in [-10000, 0) wraps from the end, and any
other index raises IndexError (`none`). -/
def npIndex (draws : Fin 10000 → ℝ) (i : ℤ) : Option ℝ :=
  if h : 0 ≤ i ∧ i < 10000 then some (draws ⟨i.toNat, by omega⟩)
  else if h2 : -10000 ≤ i ∧ i < 0 then
    some (draws ⟨(10000 + i).toNat, by omega⟩)
  else none

/-- `phi_priors = phi_priors[r_priors_df.index]`: one pore-pressure draw
per prior row, looked up by the prior iteration index; `none` as soon as
one lookup raises IndexError. -/
def phiLookups (draws : Fin 10000 → ℝ) : List Prior → Option (List ℝ)
  | [] => some []
  | pr :: rest =>
    (npIndex draws pr.idx).bind
      (fun v => (phiLookups draws rest).map (fun vs => v :: vs))

/-- The failure notebook end to end: look up the phi draws (this happens
before any stress column is computed; an out-of-bounds prior index aborts
the run for every resolver), build `search_df`, filter, and emit the
posterior table. -/
noncomputable def runFailurePipeline (draws : Fin 10000 → ℝ)
    (fps : List FaultPt) (priors : List Prior) (R : Resolver) :
    Option (List PostRow) :=
  match phiLookups draws priors with
  | none => none
  | some phis =>
    some (fail_posteriors fps R (searchRows fps priors phis) priors)

end Failure

namespace TopoCalc

/-- A 2D array slice: explicit spatial shape plus a total value function
(indices outside the shape are never consumed by in-shape reads). -/
@[ext]
structure Arr2 where
  rows : ℕ
  cols : ℕ
  val : ℕ → ℕ → ℚ

/-- Read with integer indices and zero outside the shape (the implicit
zero padding of the border per the convolution contract). -/
def Arr2.zval (A : Arr2) (i j : ℤ) : ℚ :=
  if 0 ≤ i ∧ i < A.rows ∧ 0 ≤ j ∧ j < A.cols then A.val i.toNat j.toNat else 0

/-- Elementwise combination of two arrays of equal shape (unchecked; the
pipeline only applies it to arrays whose shapes are proved equal). -/
def map2 (f : ℚ → ℚ → ℚ) (A B : Arr2) : Arr2 :=
  { rows := A.rows, cols := A.cols, val := fun i j => f (A.val i j) (B.val i j) }

/-- Multiplication of an array by a scalar. -/
def scale (c : ℚ) (A : Arr2) : Arr2 :=
  { rows := A.rows, cols := A.cols, val := fun i j => c * A.val i j }

/-- Elementwise sum that fails (ShapeMismatch, `none`) rather than
silently broadcasting when the spatial shapes differ, per the error
handling design of the spec. -/
def addChecked (A B : Arr2) : Option Arr2 :=
  if A.rows = B.rows ∧ A.cols = B.cols then some (map2 (· + ·) A B) else none

/-- Modelled from the spec: valid-mode 2D convolution of the Convolution
Engine (`halfspace` library, not among the sources): output shape is
input minus kernel plus one per axis, each output entry the full-overlap
correlation window sum. -/
def convValid (k A : Arr2) : Arr2 :=
  { rows := A.rows - k.rows + 1
    cols := A.cols - k.cols + 1
    val := fun i j =>
      ∑ a ∈ Finset.range k.rows, ∑ b ∈ Finset.range k.cols,
        k.val a b * A.val (i + a) (j + b) }

/-- Modelled from the spec: same-mode 2D convolution of the Convolution
Engine: output shape equals the input shape, borders implicitly zero
padded, the window centered on each output entry. -/
def convSame (k A : Arr2) : Arr2 :=
  { rows := A.rows
    cols := A.cols
    val := fun i j =>
      ∑ a ∈ Finset.range k.rows, ∑ b ∈ Finset.range k.cols,
        k.val a b *
          A.zval ((i : ℤ) + a - (k.rows / 2 : ℕ)) ((j : ℤ) + b - (k.cols / 2 : ℕ)) }

/-- Modelled from the spec: `halfspace._centered` (not among the
sources): symmetric re-centering crop of an array to a smaller target
shape, trimming equally from each border; when the difference is odd the
leading trim is the floor, so the extra row or column is trimmed from the
trailing edge. -/
def centered (A : Arr2) (r c : ℕ) : Arr2 :=
  { rows := r
    cols := c
    val := fun i j => A.val (i + (A.rows - r) / 2) (j + (A.cols - c) / 2) }

/-- One axis-0 slice of `np.gradient(A, h)` (default edge order): centered
differences over twice the spacing at interior rows, first-order one-sided
differences at the first and last row. -/
def gradAxis0 (A : Arr2) (h : ℚ) : Arr2 :=
  { rows := A.rows
    cols := A.cols
    val := fun i j =>
      if i = 0 then (A.val 1 j - A.val 0 j) / h
      else if i = A.rows - 1 then (A.val i j - A.val (i - 1) j) / h
      else (A.val (i + 1) j - A.val (i - 1) j) / (2 * h) }

/-- The axis-1 slice of `np.gradient(A, h)` (default edge order): centered
differences at interior columns, one-sided at the first and last column. -/
def gradAxis1 (A : Arr2) (h : ℚ) : Arr2 :=
  { rows := A.rows
    cols := A.cols
    val := fun i j =>
      if j = 0 then (A.val i 1 - A.val i 0) / h
      else if j = A.cols - 1 then (A.val i j - A.val i (j - 1)) / h
      else (A.val i (j + 1) - A.val i (j - 1)) / (2 * h) }

/-- The six independent stress components, in the order of `comp_list`. -/
inductive Comp
  | zz
  | xy
  | xz
  | yz
  | xx
  | yy

/-- `rho = 2700`. -/
def rho : ℚ := 2700

/-- `g = 9.81`. -/
def g : ℚ := 9.81

/-- `Fv = - rho * g`. -/
def Fv : ℚ := -rho * g

/-- The inputs of the stress-field notebook: the DEM, the grid resolution
`study_res`, and the kernel windows the `halfspace` Kernel Evaluator
produces per component and depth index for the Boussinesq and the two
Cerruti directions (kernel generation is the closed-form evaluator of the
spec and is kept abstract; only the window shapes matter below). -/
structure TopoInputs where
  topoIn : Arr2
  res : ℚ
  bKer : Comp → ℕ → Arr2
  cKerX : Comp → ℕ → Arr2
  cKerY : Comp → ℕ → Arr2

/-- `topo *= -1`: the negated (downward positive) topographic load. -/
def topoNeg (P : TopoInputs) : Arr2 := scale (-1) P.topoIn

/-- Modelled from the spec: `do_b_convo` for component `c` at depth index
`i` is the valid-mode convolution of the negated topographic load with
the Boussinesq kernel of that component and depth, in Pa. -/
def b_raw (P : TopoInputs) (c : Comp) (i : ℕ) : Arr2 :=
  convValid (P.bKer c i) (topoNeg P)

/-- `b_dict[comp] *= 1e-6`: the Boussinesq slice scaled to MPa once, as
persisted to the dataset `b_{comp}_MPa`. -/
def b_MPa (P : TopoInputs) (c : Comp) (i : ℕ) : Arr2 :=
  scale (1e-6) (b_raw P c i)

/-- `b_xx_top = b_db['b_xx_MPa'][:,:,0] * 1e6` (and xy, yy alike): the top
depth slice of the persisted Boussinesq component, rescaled from MPa back
to Pa once. -/
def b_top (P : TopoInputs) (c : Comp) : Arr2 := scale (1e6) (b_MPa P c 0)

/-- `topo = hs._centered(topo, b_shape)`: the topography symmetrically
re-centered to the Boussinesq output shape `b_xx_top.shape`. -/
def topoC (P : TopoInputs) : Arr2 :=
  centered (topoNeg P) (b_top P Comp.xx).rows (b_top P Comp.xx).cols

/-- `topo_dy`: the axis-0 slice of `np.gradient(topo, study_res)`. -/
def topo_dy (P : TopoInputs) : Arr2 := gradAxis0 (topoC P) P.res

/-- `topo_dx`: the axis-1 slice of `np.gradient(topo, study_res)`. -/
def topo_dx (P : TopoInputs) : Arr2 := gradAxis1 (topoC P) P.res

/-- `Fht_x = topo * Fv * topo_dx`. -/
def Fht_x (P : TopoInputs) : Arr2 := map2 (· * ·) (scale Fv (topoC P)) (topo_dx P)

/-- `Fhb_x = b_xx_top * topo_dx + b_xy_top * topo_dy`. -/
def Fhb_x (P : TopoInputs) : Arr2 :=
  map2 (· + ·) (map2 (· * ·) (b_top P Comp.xx) (topo_dx P))
    (map2 (· * ·) (b_top P Comp.xy) (topo_dy P))

/-- `Fht_y = topo * Fv * topo_dy`. -/
def Fht_y (P : TopoInputs) : Arr2 := map2 (· * ·) (scale Fv (topoC P)) (topo_dy P)

/-- `Fhb_y = b_yy_top * topo_dy + b_xy_top * topo_dx`. -/
def Fhb_y (P : TopoInputs) : Arr2 :=
  map2 (· + ·) (map2 (· * ·) (b_top P Comp.yy) (topo_dy P))
    (map2 (· * ·) (b_top P Comp.xy) (topo_dx P))

/-- `Fh_x = Fht_x + Fhb_x`: the x horizontal loading function. -/
def Fh_x (P : TopoInputs) : Arr2 := map2 (· + ·) (Fht_x P) (Fhb_x P)

/-- `Fh_y = Fht_y + Fhb_y`: the y horizontal loading function. -/
def Fh_y (P : TopoInputs) : Arr2 := map2 (· + ·) (Fht_y P) (Fhb_y P)

/-- Modelled from the spec: `do_c_convo(..., f_dir='x') * 1e-6` for
component `c` at depth index `i`: same-mode convolution of the x loading
function with the Cerruti x kernel, scaled from Pa to MPa once, as
persisted to `c_{comp}_x_MPa`. -/
def cerrX (P : TopoInputs) (c : Comp) (i : ℕ) : Arr2 :=
  scale (1e-6) (convSame (P.cKerX c i) (Fh_x P))

/-- Modelled from the spec: `do_c_convo(..., f_dir='y') * 1e-6`, as
persisted to `c_{comp}_y_MPa`. -/
def cerrY (P : TopoInputs) (c : Comp) (i : ℕ) : Arr2 :=
  scale (1e-6) (convSame (P.cKerY c i) (Fh_y P))

/-- `total_dict[comp] = b_db['b_{comp}_MPa'][:,:,:] + cerr_x[comp] +
cerr_y[comp]`: the combined stress field per component and depth slice,
with the elementwise sums failing on any shape mismatch rather than
broadcasting. -/
def totalStress (P : TopoInputs) (c : Comp) (i : ℕ) : Option Arr2 :=
  (addChecked (b_MPa P c i) (cerrX P c i)).bind
    (fun s => addChecked s (cerrY P c i))

/-- The centered finite-difference stencil along axis 0 at spacing `h`
(difference of the two axis-0 neighbors over twice the spacing), with
out-of-range neighbors read as zero — the same implicit zero padding the
spec prescribes for borders in same-mode convolution.  This is the
formal reading of a centered scheme applied at every grid point,
including the border rows. -/
def centeredDiff0 (A : Arr2) (h : ℚ) (i j : ℕ) : ℚ :=
  (A.zval ((i : ℤ) + 1) j - A.zval ((i : ℤ) - 1) j) / (2 * h)

/-- The centered finite-difference stencil along axis 1 at spacing `h`,
with out-of-range neighbors read as zero. -/
def centeredDiff1 (A : Arr2) (h : ℚ) (i j : ℕ) : ℚ :=
  (A.zval i ((j : ℤ) + 1) - A.zval i ((j : ℤ) - 1)) / (2 * h)

/-- A trivial one-by-one kernel window used to instantiate theorems at
concrete inputs. -/
def oneK : Arr2 := { rows := 1, cols := 1, val := fun _ _ => 1 }

/-- A concrete three-by-three DEM whose negation increases by one per
row, used to instantiate theorems at concrete inputs. -/
def topoI : Arr2 := { rows := 3, cols := 3, val := fun i _ => -(i : ℚ) }

/-- Concrete stress-field inputs: the three-by-three DEM, unit
resolution and one-by-one kernels. -/
def PI : TopoInputs :=
  { topoIn := topoI
    res := 1
    bKer := fun _ _ => oneK
    cKerX := fun _ _ => oneK
    cKerY := fun _ _ => oneK }

end TopoCalc

namespace Failure

/-- A concrete fault point with unit slip and all other attributes zero,
used to instantiate theorems at concrete inputs. -/
def fpI : FaultPt :=
  { z := 0, strike := 0, dip := 0, slip_m := 1, xx_stress := 0, yy_stress := 0
    xy_stress := 0, zz_stress := 0, xz_stress := 0, yz_stress := 0 }

/-- A concrete prior row with iteration index 0 and unit likelihood. -/
def prI : Prior := { idx := 0, txx := 0, tyy := 0, txy := 0, likelihood := 1 }

/-- A concrete prior row with the negative iteration index -1. -/
def prNeg : Prior := { idx := -1, txx := 0, tyy := 0, txy := 0, likelihood := 1 }

/-- A concrete resolver with zero shear components and strictly negative
effective normal stress everywhere. -/
def RI : Resolver :=
  { strike_shear := fun _ => 0
    dip_shear := fun _ => 0
    eff_normal_stress := fun _ _ => -5 }

/-- A concrete resolver with nonzero shear components and strictly
negative effective normal stress everywhere. -/
def RI2 : Resolver :=
  { strike_shear := fun _ => 3
    dip_shear := fun _ => 4
    eff_normal_stress := fun _ _ => -5 }

/-- A concrete table of pore-pressure draws, constant one half. -/
noncomputable def drawsI : Fin 10000 → ℝ := fun _ => 1 / 2

end Failure

namespace Failure

theorem lmean_nil : lmean [] = 0 := by
  simp [lmean]

theorem sum_const_list {l : List ℝ} {c : ℝ} (h : ∀ x ∈ l, x = c) :
    l.sum = l.length * c := by
  induction l with
  | nil => simp
  | cons a t ih =>
    have ha : a = c := h a (List.mem_cons_self a t)
    have ht := ih (fun x hx => h x (List.mem_cons_of_mem a hx))
    simp only [List.sum_cons, List.length_cons, ha, ht]
    push_cast
    ring

theorem lmean_const {l : List ℝ} {c : ℝ} (h0 : l ≠ []) (h : ∀ x ∈ l, x = c) :
    lmean l = c := by
  have h1 : 0 < l.length := List.length_pos.mpr h0
  have hl : (l.length : ℝ) ≠ 0 := by
    exact_mod_cast Nat.pos_iff_ne_zero.mp h1
  rw [lmean, sum_const_list h, mul_comm, mul_div_assoc, div_self hl, mul_one]

theorem sum_neg_list {l : List ℝ} (h : ∀ x ∈ l, x < 0) (h0 : l ≠ []) :
    l.sum < 0 := by
  induction l with
  | nil => exact absurd rfl h0
  | cons a t ih =>
    cases t with
    | nil => simpa using h a (List.mem_cons_self a [])
    | cons b t2 =>
      have ha : a < 0 := h a (List.mem_cons_self a (b :: t2))
      have ht : (b :: t2).sum < 0 :=
        ih (fun x hx => h x (List.mem_cons_of_mem a hx)) (List.cons_ne_nil b t2)
      simpa using add_neg ha ht

theorem lmean_neg {l : List ℝ} (h : ∀ x ∈ l, x < 0) (h0 : l ≠ []) :
    lmean l < 0 := by
  have hlen : (0 : ℝ) < l.length := by
    exact_mod_cast List.length_pos.mpr h0
  exact div_neg_of_neg_of_pos (sum_neg_list h h0) hlen

theorem mem_blockRows {fps : List FaultPt} {pr : Prior} {phiv : ℝ} {r : Row}
    (hr : r ∈ blockRows fps pr phiv) : r.iter = pr.idx := by
  rcases List.mem_map.mp hr with ⟨q, _, rfl⟩
  rfl

theorem searchRows_cons (fps : List FaultPt) (p : Prior) (ps : List Prior)
    (v : ℝ) (vs : List ℝ) :
    searchRows fps (p :: ps) (v :: vs) =
      blockRows fps p v ++ searchRows fps ps vs := by
  simp [searchRows, List.zip_cons_cons]

theorem iter_mem_of_mem_searchRows {fps : List FaultPt} {priors : List Prior}
    {phis : List ℝ} {r : Row} (hr : r ∈ searchRows fps priors phis) :
    r.iter ∈ priors.map Prior.idx := by
  rcases List.mem_flatMap.mp hr with ⟨pp, hpp, hrb⟩
  rw [mem_blockRows hrb]
  exact List.mem_map_of_mem Prior.idx (List.of_mem_zip hpp).1

theorem rowsOf_searchRows (fps : List FaultPt) {priors : List Prior}
    {phis : List ℝ} (hnd : (priors.map Prior.idx).Nodup) {pz : Prior × ℝ}
    (hpz : pz ∈ priors.zip phis) :
    rowsOf (searchRows fps priors phis) pz.1.idx = blockRows fps pz.1 pz.2 := by
  induction priors generalizing phis with
  | nil => simp at hpz
  | cons p ps ih =>
    cases phis with
    | nil => simp at hpz
    | cons v vs =>
      rw [List.zip_cons_cons] at hpz
      have hndc : p.idx ∉ ps.map Prior.idx ∧ (ps.map Prior.idx).Nodup := by
        rw [List.map_cons, List.nodup_cons] at hnd
        exact hnd
      rw [searchRows_cons, rowsOf, List.filter_append]
      rcases List.mem_cons.mp hpz with rfl | hmem
      · have h1 : (blockRows fps p v).filter
            (fun r => decide (r.iter = (p, v).1.idx)) = blockRows fps p v := by
          refine List.filter_eq_self.mpr (fun r hr => ?_)
          simp [mem_blockRows hr]
        have h2 : (searchRows fps ps vs).filter
            (fun r => decide (r.iter = (p, v).1.idx)) = [] := by
          refine List.filter_eq_nil_iff.mpr (fun r hr => ?_)
          have := iter_mem_of_mem_searchRows hr
          simp only [decide_eq_true_eq]
          intro he
          exact hndc.1 (by rw [← he]; exact this)
        rw [h1, h2, List.append_nil]
      · have hne : p.idx ≠ pz.1.idx := by
          intro he
          exact hndc.1 (by
            rw [he]
            exact List.mem_map_of_mem Prior.idx (List.of_mem_zip hmem).1)
        have h1 : (blockRows fps p v).filter
            (fun r => decide (r.iter = pz.1.idx)) = [] := by
          refine List.filter_eq_nil_iff.mpr (fun r hr => ?_)
          simp only [decide_eq_true_eq]
          rw [mem_blockRows hr]
          exact hne
        rw [h1, List.nil_append]
        exact ih hndc.2 hmem

theorem enum_map_val {α β : Type} (l : List α) (F : α → β) :
    l.enum.map (fun q => F q.2) = l.map F := by
  rw [show (fun q : ℕ × α => F q.2) = F ∘ Prod.snd from rfl, ← List.map_map,
    List.enum_map_snd]

theorem blockRows_map_misfit (fps : List FaultPt) (R : Resolver) (pr : Prior)
    (v : ℝ) :
    (blockRows fps pr v).map (weighted_tau_misfit fps R) =
      fps.map (fun p =>
        Real.sqrt (R.strike_shear (pointArgs pr p) ^ 2 +
            R.dip_shear (pointArgs pr p) ^ 2) * p.slip_m / mean_slip fps) := by
  rw [blockRows, List.map_map]
  exact enum_map_val fps (fun p =>
    Real.sqrt (R.strike_shear (pointArgs pr p) ^ 2 +
        R.dip_shear (pointArgs pr p) ^ 2) * p.slip_m / mean_slip fps)

theorem blockRows_map_sig (fps : List FaultPt) (R : Resolver) (pr : Prior)
    (v : ℝ) :
    (blockRows fps pr v).map (sig_n_eff R) =
      fps.map (fun p => R.eff_normal_stress (pointArgs pr p) v) := by
  rw [blockRows, List.map_map]
  exact enum_map_val fps (fun p => R.eff_normal_stress (pointArgs pr p) v)

/-- C1: for every iteration of the prior sample set, the friction
coefficient estimate mu of the failure filter equals the mean over the
fault points of the slip-weighted shear misfit tau_mag times slip over
the mean slip of the fault model (tau_mag the square root of the sum of
the squared strike and dip shears), divided by the mean over the same
fault points of the effective normal stress. -/
theorem mu_iter_eq_slip_weighted_mean (fps : List FaultPt) (R : Resolver)
    (priors : List Prior) (phis : List ℝ) (pz : Prior × ℝ)
    (hnd : (priors.map Prior.idx).Nodup) (hpz : pz ∈ priors.zip phis) :
    mu_iter fps R (searchRows fps priors phis) pz.1.idx =
      lmean (fps.map (fun p =>
        Real.sqrt (R.strike_shear (pointArgs pz.1 p) ^ 2 +
            R.dip_shear (pointArgs pz.1 p) ^ 2) * p.slip_m / mean_slip fps)) /
      lmean (fps.map (fun p => R.eff_normal_stress (pointArgs pz.1 p) pz.2)) := by
  rw [mu_iter, rowsOf_searchRows fps hnd hpz, blockRows_map_misfit,
    blockRows_map_sig]

theorem mu_iter_eq_slip_weighted_mean_witness :
    (([prI].map Prior.idx).Nodup ∧ (prI, (0 : ℝ)) ∈ [prI].zip [(0 : ℝ)]) ∧
      mu_iter [fpI] RI (searchRows [fpI] [prI] [0]) prI.idx =
        lmean ([fpI].map (fun p =>
          Real.sqrt (RI.strike_shear (pointArgs prI p) ^ 2 +
              RI.dip_shear (pointArgs prI p) ^ 2) * p.slip_m /
            mean_slip [fpI])) /
        lmean ([fpI].map (fun p =>
          RI.eff_normal_stress (pointArgs prI p) (0 : ℝ))) := by
  have hmem : (prI, (0 : ℝ)) ∈ [prI].zip [(0 : ℝ)] :=
    List.mem_singleton.mpr rfl
  exact ⟨⟨by decide, hmem⟩,
    mu_iter_eq_slip_weighted_mean [fpI] RI [prI] [0] (prI, 0) (by decide) hmem⟩

/-- C2: the failure filter retains an iteration exactly when its friction
estimate mu lies in the closed interval from 0 to 1 (and the iteration is
a groupby key of the sample table); every iteration with mu outside the
interval is absent from the retained index, and the mu column of the
posterior table is the retained mu values unmodified. -/
theorem kept_iff_mu_in_unit_and_unmodified (fps : List FaultPt) (R : Resolver)
    (rows : List Row) (priors : List Prior) (t : ℤ) :
    (t ∈ keptIters fps R rows ↔
      t ∈ iterKeys rows ∧
        0 ≤ mu_iter fps R rows t ∧ mu_iter fps R rows t ≤ 1) ∧
    (fail_posteriors fps R rows priors).map PostRow.mu =
      (keptIters fps R rows).map (mu_iter fps R rows) := by
  constructor
  · rw [keptIters, List.mem_filter]
    simp [decide_eq_true_eq]
  · rw [fail_posteriors, List.map_map]
    rfl

/-- C7 as stated is false: an ensemble whose effective normal stress is
strictly negative at every fault point of every iteration can still have
an iteration retained, because a zero shear magnitude gives mu equal to
zero, which passes the filter.  Concretely: one prior iteration, one
fault point, zero strike and dip shear, effective normal stress minus
five everywhere; mu is 0 and the iteration is kept. -/
theorem all_neg_normal_zero_retained_false :
    ¬ (∀ (fps : List FaultPt) (R : Resolver) (priors : List Prior)
        (phis : List ℝ),
        (∀ r ∈ searchRows fps priors phis, sig_n_eff R r < 0) →
        keptIters fps R (searchRows fps priors phis) = []) := by
  intro h
  have hneg : ∀ r ∈ searchRows [fpI] [prI] [(0 : ℝ)], sig_n_eff RI r < 0 := by
    intro r _
    norm_num [sig_n_eff, RI]
  have h0 := h [fpI] RI [prI] [0] hneg
  have hrows : searchRows [fpI] [prI] [(0 : ℝ)] =
      [convertRow (rawRow prI 0 0 fpI)] := rfl
  have hw : weighted_tau_misfit [fpI] RI (convertRow (rawRow prI 0 0 fpI)) = 0 := by
    simp [weighted_tau_misfit, tau_mag, tau_s, tau_d, RI]
  have hmu : mu_iter [fpI] RI (searchRows [fpI] [prI] [(0 : ℝ)]) 0 = 0 := by
    rw [mu_iter, show rowsOf (searchRows [fpI] [prI] [(0 : ℝ)]) 0 =
      [convertRow (rawRow prI 0 0 fpI)] from rfl]
    simp [hw, lmean]
  have hkept : (0 : ℤ) ∈ keptIters [fpI] RI (searchRows [fpI] [prI] [(0 : ℝ)]) := by
    rw [keptIters, List.mem_filter]
    refine ⟨?_, ?_⟩
    · rw [show iterKeys (searchRows [fpI] [prI] [(0 : ℝ)]) = [0] from rfl]
      exact List.mem_singleton.mpr rfl
    · rw [decide_eq_true_eq, hmu]
      norm_num
  rw [h0] at hkept
  exact absurd hkept (List.not_mem_nil 0)

/-- C7 amended: for any ensemble whose effective normal stress is
negative at every fault point of every iteration, the failure filter
retains zero iterations, provided every iteration present in the table
has a strictly positive mean slip-weighted shear misfit (iterations with
zero mean misfit give mu equal to zero and are retained). -/
theorem all_neg_normal_pos_misfit_zero_retained (fps : List FaultPt)
    (R : Resolver) (rows : List Row)
    (hneg : ∀ r ∈ rows, sig_n_eff R r < 0)
    (hpos : ∀ t ∈ iterKeys rows,
      0 < lmean ((rowsOf rows t).map (weighted_tau_misfit fps R))) :
    keptIters fps R rows = [] := by
  rw [keptIters]
  refine List.filter_eq_nil_iff.mpr (fun t ht => ?_)
  have hp := hpos t ht
  simp only [decide_eq_true_eq]
  intro hcon
  have hnonempty : rowsOf rows t ≠ [] := by
    rw [iterKeys, List.mem_dedup] at ht
    rcases List.mem_map.mp ht with ⟨r, hr, rfl⟩
    intro hnil
    have hmem : r ∈ rowsOf rows r.iter := by
      rw [rowsOf, List.mem_filter]
      exact ⟨hr, by simp⟩
    rw [hnil] at hmem
    exact absurd hmem (List.not_mem_nil r)
  have hden : lmean ((rowsOf rows t).map (sig_n_eff R)) < 0 := by
    apply lmean_neg
    · intro x hx
      rcases List.mem_map.mp hx with ⟨r, hr, rfl⟩
      exact hneg r (List.mem_of_mem_filter hr)
    · simpa using hnonempty
  have hmu : mu_iter fps R rows t < 0 := div_neg_of_pos_of_neg hp hden
  exact absurd hcon.1 (not_le.mpr hmu)

theorem all_neg_normal_pos_misfit_zero_retained_witness :
    ((∀ r ∈ searchRows [fpI] [prI] [(0 : ℝ)], sig_n_eff RI2 r < 0) ∧
      (∀ t ∈ iterKeys (searchRows [fpI] [prI] [(0 : ℝ)]),
        0 < lmean ((rowsOf (searchRows [fpI] [prI] [(0 : ℝ)]) t).map
          (weighted_tau_misfit [fpI] RI2)))) ∧
    keptIters [fpI] RI2 (searchRows [fpI] [prI] [(0 : ℝ)]) = [] := by
  have h1 : ∀ r ∈ searchRows [fpI] [prI] [(0 : ℝ)], sig_n_eff RI2 r < 0 := by
    intro r _
    norm_num [sig_n_eff, RI2]
  have h2 : ∀ t ∈ iterKeys (searchRows [fpI] [prI] [(0 : ℝ)]),
      0 < lmean ((rowsOf (searchRows [fpI] [prI] [(0 : ℝ)]) t).map
        (weighted_tau_misfit [fpI] RI2)) := by
    intro t ht
    rw [show iterKeys (searchRows [fpI] [prI] [(0 : ℝ)]) = [0] from rfl] at ht
    rw [List.eq_of_mem_singleton ht]
    rw [show rowsOf (searchRows [fpI] [prI] [(0 : ℝ)]) 0 =
      [convertRow (rawRow prI 0 0 fpI)] from rfl]
    have hw : 0 < weighted_tau_misfit [fpI] RI2 (convertRow (rawRow prI 0 0 fpI)) := by
      simp only [weighted_tau_misfit, tau_mag, tau_s, tau_d, RI2]
      have hs : (0 : ℝ) < Real.sqrt ((3 : ℝ) ^ 2 + (4 : ℝ) ^ 2) :=
        Real.sqrt_pos.mpr (by norm_num)
      have hslip : (convertRow (rawRow prI 0 0 fpI)).slip_m = 1 := rfl
      have hms : mean_slip [fpI] = 1 := by
        simp [mean_slip, lmean, fpI]
      rw [hslip, hms]
      simpa using hs
    simp only [List.map_cons, List.map_nil, lmean, List.sum_cons, List.sum_nil,
      List.length_cons, List.length_nil]
    have : (0 : ℝ) <
        weighted_tau_misfit [fpI] RI2 (convertRow (rawRow prI 0 0 fpI)) + 0 := by
      simpa using hw
    positivity
  exact ⟨⟨h1, h2⟩,
    all_neg_normal_pos_misfit_zero_retained [fpI] RI2
      (searchRows [fpI] [prI] [(0 : ℝ)]) h1 h2⟩

theorem mem_blockRows_cols {fps : List FaultPt} {pr : Prior} {v : ℝ} {r : Row}
    (hr : r ∈ blockRows fps pr v) :
    r.txx = pr.txx ∧ r.tyy = pr.tyy ∧ r.txy = pr.txy ∧ r.phi = v := by
  rcases List.mem_map.mp hr with ⟨q, _, rfl⟩
  exact ⟨rfl, rfl, rfl, rfl⟩

theorem blockRows_ne_nil {fps : List FaultPt} (pr : Prior) (v : ℝ)
    (hfps : fps ≠ []) : blockRows fps pr v ≠ [] := by
  rw [blockRows]
  simpa using hfps

theorem find_unique_idx {priors : List Prior}
    (hnd : (priors.map Prior.idx).Nodup) {pr : Prior} (hpr : pr ∈ priors) :
    priors.find? (fun x => decide (x.idx = pr.idx)) = some pr := by
  induction priors with
  | nil => simp at hpr
  | cons hd tl ih =>
    have hndc : hd.idx ∉ tl.map Prior.idx ∧ (tl.map Prior.idx).Nodup := by
      rw [List.map_cons, List.nodup_cons] at hnd
      exact hnd
    rcases List.mem_cons.mp hpr with rfl | hmem
    · exact List.find?_cons_of_pos _ (by simp)
    · have hne : hd.idx ≠ pr.idx := by
        intro he
        exact hndc.1 (by rw [he]; exact List.mem_map_of_mem Prior.idx hmem)
      rw [List.find?_cons_of_neg _ (by simp [hne])]
      exact ih hndc.2 hmem

/-- C8: for each retained iteration exactly one posterior row is emitted
(the kept index holds the iteration once when its mu is in range, zero
times otherwise), the posterior table is exactly the map over retained
iterations to the record with columns txx, tyy, txy, mu, phi, likelihood,
the per-iteration means of the txx, tyy, txy and phi columns (constant
within the iteration block) equal the prior sample values and the phi
draw, and the looked-up likelihood equals the prior likelihood. -/
theorem posterior_row_per_retained_iteration (fps : List FaultPt)
    (R : Resolver) (priors : List Prior) (phis : List ℝ) (pz : Prior × ℝ)
    (hnd : (priors.map Prior.idx).Nodup) (hpz : pz ∈ priors.zip phis)
    (hfps : fps ≠ []) :
    ((keptIters fps R (searchRows fps priors phis)).count pz.1.idx =
      if 0 ≤ mu_iter fps R (searchRows fps priors phis) pz.1.idx ∧
          mu_iter fps R (searchRows fps priors phis) pz.1.idx ≤ 1
        then 1 else 0) ∧
    txx_of (searchRows fps priors phis) pz.1.idx = pz.1.txx ∧
    tyy_of (searchRows fps priors phis) pz.1.idx = pz.1.tyy ∧
    txy_of (searchRows fps priors phis) pz.1.idx = pz.1.txy ∧
    phi_of (searchRows fps priors phis) pz.1.idx = pz.2 ∧
    likelihood_of priors pz.1.idx = pz.1.likelihood ∧
    fail_posteriors fps R (searchRows fps priors phis) priors =
      (keptIters fps R (searchRows fps priors phis)).map (fun s =>
        { txx := txx_of (searchRows fps priors phis) s
          tyy := tyy_of (searchRows fps priors phis) s
          txy := txy_of (searchRows fps priors phis) s
          mu := mu_iter fps R (searchRows fps priors phis) s
          phi := phi_of (searchRows fps priors phis) s
          likelihood := likelihood_of priors s }) := by
  have hblock := rowsOf_searchRows fps hnd hpz
  have hbne : blockRows fps pz.1 pz.2 ≠ [] := blockRows_ne_nil pz.1 pz.2 hfps
  have hkeymem : pz.1.idx ∈ iterKeys (searchRows fps priors phis) := by
    rcases List.exists_mem_of_ne_nil _ hbne with ⟨r, hr⟩
    have hriter : r.iter = pz.1.idx := mem_blockRows hr
    have hrrows : r ∈ searchRows fps priors phis := by
      have : r ∈ rowsOf (searchRows fps priors phis) pz.1.idx := hblock ▸ hr
      exact List.mem_of_mem_filter this
    rw [iterKeys, List.mem_dedup]
    exact hriter ▸ List.mem_map_of_mem Row.iter hrrows
  have hknodup : (keptIters fps R (searchRows fps priors phis)).Nodup :=
    (List.nodup_dedup _).filter _
  refine ⟨?_, ?_, ?_, ?_, ?_, ?_, rfl⟩
  · by_cases hin : 0 ≤ mu_iter fps R (searchRows fps priors phis) pz.1.idx ∧
        mu_iter fps R (searchRows fps priors phis) pz.1.idx ≤ 1
    · rw [if_pos hin]
      refine List.count_eq_one_of_mem hknodup ?_
      rw [keptIters, List.mem_filter]
      exact ⟨hkeymem, by rw [decide_eq_true_eq]; exact hin⟩
    · rw [if_neg hin]
      refine List.count_eq_zero.mpr ?_
      intro hmem
      rw [keptIters, List.mem_filter, decide_eq_true_eq] at hmem
      exact hin hmem.2
  · rw [txx_of, hblock]
    refine lmean_const (by simpa using hbne) ?_
    intro x hx
    rcases List.mem_map.mp hx with ⟨r, hr, rfl⟩
    exact (mem_blockRows_cols hr).1
  · rw [tyy_of, hblock]
    refine lmean_const (by simpa using hbne) ?_
    intro x hx
    rcases List.mem_map.mp hx with ⟨r, hr, rfl⟩
    exact (mem_blockRows_cols hr).2.1
  · rw [txy_of, hblock]
    refine lmean_const (by simpa using hbne) ?_
    intro x hx
    rcases List.mem_map.mp hx with ⟨r, hr, rfl⟩
    exact (mem_blockRows_cols hr).2.2.1
  · rw [phi_of, hblock]
    refine lmean_const (by simpa using hbne) ?_
    intro x hx
    rcases List.mem_map.mp hx with ⟨r, hr, rfl⟩
    exact (mem_blockRows_cols hr).2.2.2
  · rw [likelihood_of, find_unique_idx hnd (List.of_mem_zip hpz).1]
    rfl

theorem posterior_row_per_retained_iteration_witness :
    ((([prI].map Prior.idx).Nodup ∧ (prI, (0 : ℝ)) ∈ [prI].zip [(0 : ℝ)] ∧
        ([fpI] : List FaultPt) ≠ []) ∧
      txx_of (searchRows [fpI] [prI] [(0 : ℝ)]) prI.idx = prI.txx) ∧
    likelihood_of [prI] prI.idx = prI.likelihood := by
  have hmem : (prI, (0 : ℝ)) ∈ [prI].zip [(0 : ℝ)] :=
    List.mem_singleton.mpr rfl
  have hfps : ([fpI] : List FaultPt) ≠ [] := List.cons_ne_nil fpI []
  have h := posterior_row_per_retained_iteration [fpI] RI [prI] [0] (prI, 0)
    (by decide) hmem hfps
  exact ⟨⟨⟨by decide, hmem, hfps⟩, h.2.1⟩, h.2.2.2.2.2.1⟩

theorem flatMap_const_length {α β : Type} (g : α → List β) (F : ℕ)
    (hg : ∀ x, (g x).length = F) (l : List α) :
    (l.flatMap g).length = l.length * F := by
  induction l with
  | nil => simp
  | cons a t ih =>
    rw [List.flatMap_cons, List.length_append, hg a, ih, List.length_cons,
      Nat.succ_mul]
    omega

theorem flatMap_const_getElem {α β : Type} [Inhabited α] (g : α → List β)
    (F : ℕ) (hg : ∀ x, (g x).length = F) :
    ∀ (l : List α) (r : ℕ), r < l.length * F →
      (l.flatMap g)[r]? = (g (l.getD (r / F) default))[r % F]? := by
  intro l
  induction l with
  | nil =>
    intro r hr
    simp at hr
  | cons a t ih =>
    intro r hr
    rcases Nat.eq_zero_or_pos F with rfl | hF
    · rw [Nat.mul_zero] at hr
      exact absurd hr (Nat.not_lt_zero r)
    rw [List.flatMap_cons]
    by_cases hrF : r < F
    · rw [List.getElem?_append_left (by rw [hg a]; exact hrF)]
      rw [Nat.div_eq_of_lt hrF, Nat.mod_eq_of_lt hrF]
      rfl
    · push_neg at hrF
      rw [List.getElem?_append_right (by rw [hg a]; exact hrF)]
      rw [hg a]
      have hr2 : r - F < t.length * F := by
        have hs : r < t.length * F + F := by
          have : (a :: t).length * F = t.length * F + F := by
            rw [List.length_cons, Nat.succ_mul]
          rw [this] at hr
          exact hr
        omega
      rw [ih (r - F) hr2]
      rw [Nat.div_eq_sub_div hF hrF, Nat.mod_eq_sub_mod hrF,
        List.getD_cons_succ]

theorem zip_getD {α β : Type} [Inhabited α] [Inhabited β] :
    ∀ (l : List α) (m : List β) (k : ℕ), k < l.length → k < m.length →
      (l.zip m).getD k default = (l.getD k default, m.getD k default) := by
  intro l
  induction l with
  | nil =>
    intro m k hk _
    simp at hk
  | cons a t ih =>
    intro m k hk hm
    cases m with
    | nil => simp at hm
    | cons b s =>
      cases k with
      | zero => simp [List.zip_cons_cons]
      | succ k2 =>
        rw [List.zip_cons_cons, List.getD_cons_succ, List.getD_cons_succ,
          List.getD_cons_succ]
        exact ih s k2 (by simpa using hk) (by simpa using hm)

theorem blockRows_length (fps : List FaultPt) (pr : Prior) (v : ℝ) :
    (blockRows fps pr v).length = fps.length := by
  simp [blockRows]

theorem blockRows_getElem (fps : List FaultPt) (pr : Prior) (v : ℝ) (k : ℕ)
    (hk : k < fps.length) :
    (blockRows fps pr v)[k]? =
      some (convertRow (rawRow pr v k (fps.getD k default))) := by
  rw [blockRows, List.getElem?_map]
  have he : fps.enum[k]? = some (k, fps.getD k default) := by
    rw [List.getElem?_enum]
    rw [List.getElem?_eq_getElem hk, List.getD_eq_getElem fps default hk]
    rfl
  rw [he]
  rfl

/-- C9: the sample table is iteration major: it has one row per
(prior iteration, fault point) pair, and the row at 0-based position r is
the converted row built from the prior at position r div n_points of the
prior table (with its phi draw) and from fault point r mod n_points — so
the fault-point attributes of a row depend only on r mod n_points and
repeat identically across all iteration blocks. -/
theorem search_table_iteration_major (fps : List FaultPt)
    (priors : List Prior) (phis : List ℝ) (hlen : phis.length = priors.length)
    (r : ℕ) (hr : r < priors.length * fps.length) :
    (searchRows fps priors phis).length = priors.length * fps.length ∧
    (searchRows fps priors phis)[r]? =
      some (convertRow (rawRow (priors.getD (r / fps.length) default)
        (phis.getD (r / fps.length) 0) (r % fps.length)
        (fps.getD (r % fps.length) default))) := by
  have hg : ∀ pp : Prior × ℝ, (blockRows fps pp.1 pp.2).length = fps.length :=
    fun pp => blockRows_length fps pp.1 pp.2
  have hzlen : (priors.zip phis).length = priors.length := by
    rw [List.length_zip, hlen, min_self]
  have hF : 0 < fps.length := by
    rcases Nat.eq_zero_or_pos fps.length with h0 | h
    · rw [h0, Nat.mul_zero] at hr
      exact absurd hr (Nat.not_lt_zero r)
    · exact h
  have hdiv : r / fps.length < priors.length :=
    (Nat.div_lt_iff_lt_mul hF).mpr hr
  have hmod : r % fps.length < fps.length := Nat.mod_lt r hF
  constructor
  · rw [searchRows, flatMap_const_length _ fps.length hg, hzlen]
  · rw [searchRows, flatMap_const_getElem _ fps.length hg _ r
      (by rw [hzlen]; exact hr)]
    rw [zip_getD priors phis (r / fps.length) hdiv (by rw [hlen]; exact hdiv)]
    exact blockRows_getElem fps _ _ _ hmod

theorem search_table_iteration_major_witness :
    (([(0 : ℝ)].length = [prI].length ∧ 0 < [prI].length * [fpI].length) ∧
      (searchRows [fpI] [prI] [(0 : ℝ)]).length =
        [prI].length * [fpI].length) ∧
    (searchRows [fpI] [prI] [(0 : ℝ)])[0]? =
      some (convertRow (rawRow ([prI].getD (0 / [fpI].length) default)
        ([(0 : ℝ)].getD (0 / [fpI].length) 0) (0 % [fpI].length)
        ([fpI].getD (0 % [fpI].length) default))) := by
  have h := search_table_iteration_major [fpI] [prI] [0] rfl 0 (by decide)
  exact ⟨⟨⟨rfl, by decide⟩, h.1⟩, h.2⟩

theorem npIndex_isSome (draws : Fin 10000 → ℝ) (i : ℤ) :
    (npIndex draws i).isSome = true ↔ -10000 ≤ i ∧ i < 10000 := by
  rw [npIndex]
  split_ifs with h1 h2 <;> simp <;> omega

theorem phiLookups_isSome (draws : Fin 10000 → ℝ) (priors : List Prior) :
    (phiLookups draws priors).isSome = true ↔
      ∀ pr ∈ priors, -10000 ≤ pr.idx ∧ pr.idx < 10000 := by
  induction priors with
  | nil => simp [phiLookups]
  | cons p rest ih =>
    cases hn : npIndex draws p.idx with
    | none =>
      have hv : ¬(-10000 ≤ p.idx ∧ p.idx < 10000) := by
        have hs := npIndex_isSome draws p.idx
        rw [hn] at hs
        simpa using hs
      simp [phiLookups, hn, hv]
    | some v =>
      have hv : -10000 ≤ p.idx ∧ p.idx < 10000 := by
        have hs := npIndex_isSome draws p.idx
        rw [hn] at hs
        simpa using hs
      simp [phiLookups, hn, ih, hv]

/-- C10 as stated is false in one direction: the pipeline is not only
defined for prior iteration indices in [0, 10000); a prior file whose
index is the integer -1 also runs, because NumPy integer indexing wraps
negative indices from the end of the 10000-draw phi array.  (The other
direction of the claim, failure at or above 10000, is true and is part
of the amended theorem.) -/
theorem defined_only_nonneg_index_false :
    ¬ (∀ (draws : Fin 10000 → ℝ) (fps : List FaultPt) (priors : List Prior)
        (R : Resolver),
        (runFailurePipeline draws fps priors R).isSome = true →
        ∀ pr ∈ priors, 0 ≤ pr.idx ∧ pr.idx < 10000) := by
  intro h
  have hbounds : ∀ pr ∈ [prNeg], -10000 ≤ pr.idx ∧ pr.idx < 10000 := by
    intro pr hpr
    rw [List.eq_of_mem_singleton hpr]
    exact ⟨by decide, by decide⟩
  obtain ⟨l, hl⟩ := Option.isSome_iff_exists.mp
    ((phiLookups_isSome drawsI [prNeg]).mpr hbounds)
  have hsome : (runFailurePipeline drawsI [] [prNeg] RI).isSome = true := by
    rw [runFailurePipeline, hl]
    rfl
  have hcon := h drawsI [] [prNeg] RI hsome prNeg (List.mem_singleton.mpr rfl)
  exact absurd hcon.1 (by decide)

/-- C10 amended: the failure pipeline run is defined exactly when every
iteration index of the prior file lies in [-10000, 10000) — NumPy integer
indexing of the fixed table of 10000 phi draws wraps negative indices
from the end — and in particular a prior file containing an index at or
above 10000 (or below -10000) aborts with an IndexError for every
resolver, before any stress is computed. -/
theorem pipeline_defined_iff_index_in_bounds (draws : Fin 10000 → ℝ)
    (fps : List FaultPt) (priors : List Prior) (R : Resolver) :
    (runFailurePipeline draws fps priors R).isSome = true ↔
      ∀ pr ∈ priors, -10000 ≤ pr.idx ∧ pr.idx < 10000 := by
  rw [← phiLookups_isSome draws priors, runFailurePipeline]
  cases h : phiLookups draws priors <;> simp [h]

end Failure

namespace TopoCalc

theorem b_MPa_rows (P : TopoInputs) (c : Comp) (i : ℕ) :
    (b_MPa P c i).rows = P.topoIn.rows - (P.bKer c i).rows + 1 := rfl

theorem b_MPa_cols (P : TopoInputs) (c : Comp) (i : ℕ) :
    (b_MPa P c i).cols = P.topoIn.cols - (P.bKer c i).cols + 1 := rfl

theorem cerrX_rows (P : TopoInputs) (c : Comp) (i : ℕ) :
    (cerrX P c i).rows = P.topoIn.rows - (P.bKer Comp.xx 0).rows + 1 := rfl

theorem cerrX_cols (P : TopoInputs) (c : Comp) (i : ℕ) :
    (cerrX P c i).cols = P.topoIn.cols - (P.bKer Comp.xx 0).cols + 1 := rfl

theorem cerrY_rows (P : TopoInputs) (c : Comp) (i : ℕ) :
    (cerrY P c i).rows = P.topoIn.rows - (P.bKer Comp.xx 0).rows + 1 := rfl

theorem cerrY_cols (P : TopoInputs) (c : Comp) (i : ℕ) :
    (cerrY P c i).cols = P.topoIn.cols - (P.bKer Comp.xx 0).cols + 1 := rfl

theorem totalStress_some (P : TopoInputs) (kL : ℕ)
    (hkr : ∀ c i, (P.bKer c i).rows = kL)
    (hkc : ∀ c i, (P.bKer c i).cols = kL) (c : Comp) (i : ℕ) :
    totalStress P c i = some
      { rows := (b_MPa P c i).rows
        cols := (b_MPa P c i).cols
        val := fun a b => (b_MPa P c i).val a b + (cerrX P c i).val a b +
          (cerrY P c i).val a b } := by
  have e1 : (b_MPa P c i).rows = (cerrX P c i).rows := by
    rw [b_MPa_rows, cerrX_rows, hkr c i, hkr Comp.xx 0]
  have e2 : (b_MPa P c i).cols = (cerrX P c i).cols := by
    rw [b_MPa_cols, cerrX_cols, hkc c i, hkc Comp.xx 0]
  have e3 : (map2 (· + ·) (b_MPa P c i) (cerrX P c i)).rows =
      (cerrY P c i).rows := by
    show (b_MPa P c i).rows = (cerrY P c i).rows
    rw [b_MPa_rows, cerrY_rows, hkr c i, hkr Comp.xx 0]
  have e4 : (map2 (· + ·) (b_MPa P c i) (cerrX P c i)).cols =
      (cerrY P c i).cols := by
    show (b_MPa P c i).cols = (cerrY P c i).cols
    rw [b_MPa_cols, cerrY_cols, hkc c i, hkc Comp.xx 0]
  rw [totalStress, addChecked, if_pos ⟨e1, e2⟩, Option.some_bind, addChecked,
    if_pos ⟨e3, e4⟩]
  rfl

/-- C4: for every stress component and depth index, the combined field
equals the elementwise sum of the persisted Boussinesq MPa slice and the
Cerruti x and y MPa slices: the checked sum succeeds and its entries are
exactly the three addends added, with no further scaling or rounding. -/
theorem total_eq_bouss_add_cerruti (P : TopoInputs) (kL : ℕ)
    (hkr : ∀ c i, (P.bKer c i).rows = kL)
    (hkc : ∀ c i, (P.bKer c i).cols = kL) (c : Comp) (i : ℕ) :
    totalStress P c i = some
      { rows := (b_MPa P c i).rows
        cols := (b_MPa P c i).cols
        val := fun a b => (b_MPa P c i).val a b + (cerrX P c i).val a b +
          (cerrY P c i).val a b } :=
  totalStress_some P kL hkr hkc c i

theorem total_eq_bouss_add_cerruti_witness :
    ((∀ c i, (PI.bKer c i).rows = 1) ∧ (∀ c i, (PI.bKer c i).cols = 1)) ∧
    totalStress PI Comp.zz 0 = some
      { rows := (b_MPa PI Comp.zz 0).rows
        cols := (b_MPa PI Comp.zz 0).cols
        val := fun a b => (b_MPa PI Comp.zz 0).val a b +
          (cerrX PI Comp.zz 0).val a b + (cerrY PI Comp.zz 0).val a b } := by
  have h1 : ∀ c i, (PI.bKer c i).rows = 1 := fun _ _ => rfl
  have h2 : ∀ c i, (PI.bKer c i).cols = 1 := fun _ _ => rfl
  exact ⟨⟨h1, h2⟩, total_eq_bouss_add_cerruti PI 1 h1 h2 Comp.zz 0⟩

/-- C5: before the combined stage all three contributions for a
component and depth share one spatial shape: the Boussinesq slice has the
valid-convolution shape input minus kernel plus one, the topography is
re-centered to exactly the Boussinesq output shape by a symmetric crop
(reading from an offset of half the shape difference per axis), the
Cerruti slices are allocated at that cropped shape (same-mode convolution
preserves it), the checked combined sum therefore succeeds, and the
checked sum of any two arrays of mismatched shape fails with none rather
than broadcasting. -/
theorem contributions_shape_eq (P : TopoInputs) (kL : ℕ)
    (hkr : ∀ c i, (P.bKer c i).rows = kL)
    (hkc : ∀ c i, (P.bKer c i).cols = kL) (c : Comp) (i : ℕ) :
    (b_MPa P c i).rows = P.topoIn.rows - kL + 1 ∧
    (b_MPa P c i).cols = P.topoIn.cols - kL + 1 ∧
    (topoC P).rows = (b_MPa P Comp.xx 0).rows ∧
    (topoC P).cols = (b_MPa P Comp.xx 0).cols ∧
    (∀ a b, (topoC P).val a b =
      (topoNeg P).val (a + (P.topoIn.rows - (topoC P).rows) / 2)
        (b + (P.topoIn.cols - (topoC P).cols) / 2)) ∧
    (cerrX P c i).rows = (topoC P).rows ∧
    (cerrX P c i).cols = (topoC P).cols ∧
    (cerrY P c i).rows = (topoC P).rows ∧
    (cerrY P c i).cols = (topoC P).cols ∧
    (totalStress P c i).isSome = true ∧
    (∀ A B : Arr2, A.rows ≠ B.rows ∨ A.cols ≠ B.cols →
      addChecked A B = none) := by
  refine ⟨?_, ?_, rfl, rfl, fun a b => rfl, ?_, ?_, ?_, ?_, ?_, ?_⟩
  · rw [b_MPa_rows, hkr c i]
  · rw [b_MPa_cols, hkc c i]
  · rw [cerrX_rows]
    show P.topoIn.rows - (P.bKer Comp.xx 0).rows + 1 =
      P.topoIn.rows - (P.bKer Comp.xx 0).rows + 1
    rfl
  · rfl
  · rfl
  · rfl
  · rw [totalStress_some P kL hkr hkc c i]
    rfl
  · intro A B hne
    rw [addChecked, if_neg]
    tauto

theorem contributions_shape_eq_witness :
    ((∀ c i, (PI.bKer c i).rows = 1) ∧ (∀ c i, (PI.bKer c i).cols = 1)) ∧
    (b_MPa PI Comp.zz 0).rows = PI.topoIn.rows - 1 + 1 ∧
    (totalStress PI Comp.zz 0).isSome = true := by
  have h1 : ∀ c i, (PI.bKer c i).rows = 1 := fun _ _ => rfl
  have h2 : ∀ c i, (PI.bKer c i).cols = 1 := fun _ _ => rfl
  have h := contributions_shape_eq PI 1 h1 h2 Comp.zz 0
  exact ⟨⟨h1, h2⟩, h.1, h.2.2.2.2.2.2.2.2.2.1⟩

/-- C3 as stated is false: the loading-function equations do hold, but
the topography gradients are not centered differences at every grid
point.  At the border rows and columns `np.gradient` uses first-order
one-sided differences; on a concrete three-by-three grid whose negated
topography grows by one per row at unit resolution, the code gives
slope 1 at the first row while the centered stencil (out-of-range
neighbors read as zero, the border convention the spec itself uses for
convolution) gives one half. -/
theorem loading_grad_centered_everywhere_false :
    ¬ (∀ P : TopoInputs,
        (∀ i j, (Fh_x P).val i j =
          (topoC P).val i j * Fv * (topo_dx P).val i j +
          (b_top P Comp.xx).val i j * (topo_dx P).val i j +
          (b_top P Comp.xy).val i j * (topo_dy P).val i j) ∧
        (∀ i j, (Fh_y P).val i j =
          (topoC P).val i j * Fv * (topo_dy P).val i j +
          (b_top P Comp.yy).val i j * (topo_dy P).val i j +
          (b_top P Comp.xy).val i j * (topo_dx P).val i j) ∧
        (∀ i j, i < (topoC P).rows → j < (topoC P).cols →
          (topo_dy P).val i j = centeredDiff0 (topoC P) P.res i j ∧
          (topo_dx P).val i j = centeredDiff1 (topoC P) P.res i j)) := by
  intro h
  have h3 := ((h PI).2.2 0 0 (by decide) (by decide)).1
  have e1 : (topo_dy PI).val 0 0 = 1 := by
    norm_num [topo_dy, gradAxis0, topoC, centered, b_top, b_MPa, b_raw,
      convValid, topoNeg, scale, PI, topoI, oneK]
  have e2 : centeredDiff0 (topoC PI) PI.res 0 0 = 1 / 2 := by
    norm_num [centeredDiff0, Arr2.zval, topoC, centered, b_top, b_MPa, b_raw,
      convValid, topoNeg, scale, PI, topoI, oneK]
  rw [e1, e2] at h3
  norm_num at h3

/-- C3 amended: before the Cerruti stage the horizontal loading
functions satisfy Fh_x = topo * Fv * dx + bxx * dx + bxy * dy and
Fh_y = topo * Fv * dy + byy * dy + bxy * dx, where topo is the
re-centered topography, bxx, bxy, byy are the top depth slices of the
persisted Boussinesq components rescaled from MPa back to Pa, and the
partial derivatives are the np.gradient of the re-centered topography at
the grid resolution: centered differences over twice the spacing at
interior points, and first-order one-sided differences at the border
rows and columns (not centered differences there). -/
theorem loading_functions_np_gradient (P : TopoInputs) :
    (∀ i j, (Fh_x P).val i j =
      (topoC P).val i j * Fv * (topo_dx P).val i j +
      (b_top P Comp.xx).val i j * (topo_dx P).val i j +
      (b_top P Comp.xy).val i j * (topo_dy P).val i j) ∧
    (∀ i j, (Fh_y P).val i j =
      (topoC P).val i j * Fv * (topo_dy P).val i j +
      (b_top P Comp.yy).val i j * (topo_dy P).val i j +
      (b_top P Comp.xy).val i j * (topo_dx P).val i j) ∧
    (∀ i j, 1 ≤ i → i + 1 < (topoC P).rows →
      (topo_dy P).val i j =
        ((topoC P).val (i + 1) j - (topoC P).val (i - 1) j) / (2 * P.res)) ∧
    (∀ j, (topo_dy P).val 0 j =
      ((topoC P).val 1 j - (topoC P).val 0 j) / P.res) ∧
    (∀ j, 2 ≤ (topoC P).rows →
      (topo_dy P).val ((topoC P).rows - 1) j =
        ((topoC P).val ((topoC P).rows - 1) j -
          (topoC P).val ((topoC P).rows - 2) j) / P.res) ∧
    (∀ i j, 1 ≤ j → j + 1 < (topoC P).cols →
      (topo_dx P).val i j =
        ((topoC P).val i (j + 1) - (topoC P).val i (j - 1)) / (2 * P.res)) ∧
    (∀ i, (topo_dx P).val i 0 =
      ((topoC P).val i 1 - (topoC P).val i 0) / P.res) ∧
    (∀ i, 2 ≤ (topoC P).cols →
      (topo_dx P).val i ((topoC P).cols - 1) =
        ((topoC P).val i ((topoC P).cols - 1) -
          (topoC P).val i ((topoC P).cols - 2)) / P.res) := by
  have h0 : ∀ i j, (topo_dy P).val i j =
      if i = 0 then ((topoC P).val 1 j - (topoC P).val 0 j) / P.res
      else if i = (topoC P).rows - 1 then
        ((topoC P).val i j - (topoC P).val (i - 1) j) / P.res
      else ((topoC P).val (i + 1) j - (topoC P).val (i - 1) j) / (2 * P.res) :=
    fun i j => rfl
  have h1 : ∀ i j, (topo_dx P).val i j =
      if j = 0 then ((topoC P).val i 1 - (topoC P).val i 0) / P.res
      else if j = (topoC P).cols - 1 then
        ((topoC P).val i j - (topoC P).val i (j - 1)) / P.res
      else ((topoC P).val i (j + 1) - (topoC P).val i (j - 1)) / (2 * P.res) :=
    fun i j => rfl
  refine ⟨?_, ?_, ?_, ?_, ?_, ?_, ?_, ?_⟩
  · intro i j
    simp only [Fh_x, Fht_x, Fhb_x, map2, scale]
    ring
  · intro i j
    simp only [Fh_y, Fht_y, Fhb_y, map2, scale]
    ring
  · intro i j hi hi2
    rw [h0, if_neg (by omega), if_neg (by omega)]
  · intro j
    rw [h0, if_pos rfl]
  · intro j h2
    rw [h0, if_neg (by omega), if_pos rfl,
      show (topoC P).rows - 1 - 1 = (topoC P).rows - 2 from by omega]
  · intro i j hj hj2
    rw [h1, if_neg (by omega), if_neg (by omega)]
  · intro i
    rw [h1, if_pos rfl]
  · intro i h2
    rw [h1, if_neg (by omega), if_pos rfl,
      show (topoC P).cols - 1 - 1 = (topoC P).cols - 2 from by omega]

end TopoCalc

/-- C6: each unit conversion happens exactly once at a single step.  In
the failure pipeline the sample-table row holds depth equal to exactly
1000 times the fault-model depth (km to m) and moment components equal to
exactly 1e6 times the fault-model stresses (MPa to Pa), while strike,
dip, slip, the tectonic components and phi are passed through unscaled,
and the resolver functions consume exactly those once-converted values.
In the stress-field pipeline each persisted component slice is exactly
1e-6 times the Pa-valued convolution result (Pa to MPa once), and the
readback of the top Boussinesq slice at 1e6 recovers the Pa values
exactly. -/
theorem unit_conversions_single_step :
    (∀ (pr : Failure.Prior) (v : ℝ) (k : ℕ) (p : Failure.FaultPt),
      (Failure.convertRow (Failure.rawRow pr v k p)).depth = 1000 * p.z ∧
      (Failure.convertRow (Failure.rawRow pr v k p)).mxx = 1e6 * p.xx_stress ∧
      (Failure.convertRow (Failure.rawRow pr v k p)).myy = 1e6 * p.yy_stress ∧
      (Failure.convertRow (Failure.rawRow pr v k p)).mxy = 1e6 * p.xy_stress ∧
      (Failure.convertRow (Failure.rawRow pr v k p)).mzz = 1e6 * p.zz_stress ∧
      (Failure.convertRow (Failure.rawRow pr v k p)).mxz = 1e6 * p.xz_stress ∧
      (Failure.convertRow (Failure.rawRow pr v k p)).myz = 1e6 * p.yz_stress ∧
      (Failure.convertRow (Failure.rawRow pr v k p)).strike = p.strike ∧
      (Failure.convertRow (Failure.rawRow pr v k p)).dip = p.dip ∧
      (Failure.convertRow (Failure.rawRow pr v k p)).slip_m = p.slip_m ∧
      (Failure.convertRow (Failure.rawRow pr v k p)).txx = pr.txx ∧
      (Failure.convertRow (Failure.rawRow pr v k p)).tyy = pr.tyy ∧
      (Failure.convertRow (Failure.rawRow pr v k p)).txy = pr.txy ∧
      (Failure.convertRow (Failure.rawRow pr v k p)).phi = v ∧
      (∀ R : Failure.Resolver,
        Failure.tau_s R (Failure.convertRow (Failure.rawRow pr v k p)) =
          R.strike_shear (Failure.pointArgs pr p) ∧
        Failure.tau_d R (Failure.convertRow (Failure.rawRow pr v k p)) =
          R.dip_shear (Failure.pointArgs pr p) ∧
        Failure.sig_n_eff R (Failure.convertRow (Failure.rawRow pr v k p)) =
          R.eff_normal_stress (Failure.pointArgs pr p) v)) ∧
    (∀ (P : TopoCalc.TopoInputs) (c : TopoCalc.Comp) (i a b : ℕ),
      (TopoCalc.b_MPa P c i).val a b =
        1e-6 * (TopoCalc.b_raw P c i).val a b ∧
      (TopoCalc.cerrX P c i).val a b =
        1e-6 * (TopoCalc.convSame (P.cKerX c i) (TopoCalc.Fh_x P)).val a b ∧
      (TopoCalc.cerrY P c i).val a b =
        1e-6 * (TopoCalc.convSame (P.cKerY c i) (TopoCalc.Fh_y P)).val a b ∧
      (TopoCalc.b_top P c).val a b = (TopoCalc.b_raw P c 0).val a b) := by
  constructor
  · intro pr v k p
    refine ⟨rfl, rfl, rfl, rfl, rfl, rfl, rfl, rfl, rfl, rfl, rfl, rfl, rfl,
      rfl, ?_⟩
    intro R
    exact ⟨rfl, rfl, rfl⟩
  · intro P c i a b
    refine ⟨rfl, rfl, rfl, ?_⟩
    show (1e6 : ℚ) * ((1e-6 : ℚ) * (TopoCalc.b_raw P c 0).val a b) =
      (TopoCalc.b_raw P c 0).val a b
    rw [← mul_assoc]
    norm_num
